import Mathlib

/-!
Verification of the `smartie` CLI presentation layer (`smartie/cli.py`)
and the structure codec described by the repository's design document.

The developments below shallowly embed:
  * `print_structure` (cli.py lines 16-79): generic rendering of a
    ctypes.Structure into rows of (offset label, field name, value),
    including the hex/ASCII byte-array dump and the bitfield width
    fallback;
  * the three CLI commands `enumerate`, `details` and `debug`
    (cli.py lines 89-201), modelled as event traces over a device
    handle so that the `with`-scoping discipline can be stated;
  * the structure codec (`decode`/`encode`) of the design document,
    which has no source file in this repository and is therefore
    modelled from the specification text.
-/

namespace Smartie

/-! ## Formatting helpers (Python format specifiers used in cli.py) -/

/-- The character for one hex digit, uppercase, mirroring Python's `X`
format type: 0-9 then A-F. -/
def hexDigit (n : Nat) : Char :=
  if n < 10 then Char.ofNat (48 + n) else Char.ofNat (55 + n)

/-- Hex digits of `n`, least significant first.  Structural recursion
on a fuel bound (`n / 16 < n` for `n ≥ 16`, so `n` itself is enough
fuel). -/
def hexDigitsRevAux : Nat → Nat → List Char
  | 0, n => [hexDigit n]
  | fuel + 1, n =>
      if n < 16 then [hexDigit n]
      else hexDigit (n % 16) :: hexDigitsRevAux fuel (n / 16)

def hexDigitsRev (n : Nat) : List Char :=
  hexDigitsRevAux n n

/-- Uppercase hexadecimal rendering of `n` with no padding, as Python's
`f"{n:X}"`. -/
def natToHexStr (n : Nat) : String :=
  String.mk (hexDigitsRev n).reverse

/-- Left-pad `s` with `c` up to width `w`, as Python's zero-padded
format specifiers do. -/
def padLeft (c : Char) (w : Nat) (s : String) : String :=
  String.mk (List.replicate (w - s.length) c) ++ s

/-- Python's `f"{b:02X}"`: at least two uppercase hex digits. -/
def formatHex2 (b : Nat) : String :=
  padLeft '0' 2 (natToHexStr b)

/-- Python's `f"0x{n:03X}"`, the scalar value rendering in
`print_structure`. -/
def formatHex3 (n : Nat) : String :=
  "0x" ++ padLeft '0' 3 (natToHexStr n)

/-- Python's `f"[{o:03}:{e:03}]"`, the offset label of a row
(cli.py lines 56, 60, 66, 72). -/
def labelOf (o e : Nat) : String :=
  "[" ++ padLeft '0' 3 (toString o) ++ ":" ++ padLeft '0' 3 (toString e) ++ "]"

/-! ## The field model of `print_structure` -/

/-- One entry of a ctypes `_fields_` list.  A 3-tuple
`(name, type, bitcount)` carries `bits = some bitcount`; a 2-tuple
`(name, type)` carries `bits = none` and only the type's byte size. -/
structure FieldDecl where
  name : String
  size : Nat
  bits : Option Nat
deriving Repr, DecidableEq

/-- The bit width `print_structure` assigns to a field
(cli.py lines 29-35): the third tuple element verbatim when present,
otherwise `ctypes.sizeof(type) * 8`. -/
def fieldBitcount (f : FieldDecl) : Nat :=
  f.bits.getD (f.size * 8)

/-- A ctypes runtime value as `print_structure` discriminates it with
`isinstance` (cli.py lines 39-75): a `ctypes.Array` (seen as its bytes),
a `c_uint128`, a nested `ctypes.Structure` (its ordered fields), or any
other scalar.  The constructors are listed in the order of the
`isinstance` checks; in Python `c_uint128` is itself a
`ctypes.Structure`, and the earlier `isinstance(value, c_uint128)`
check is what routes it to the integer rendering. -/
inductive CValue where
  | array : List Nat → CValue
  | u128 : Nat → CValue
  | cstruct : List (FieldDecl × CValue) → CValue
  | scalar : Nat → CValue
deriving Repr

/-- Iterate `bs` in chunks of `n` (the last chunk may be shorter).
Modelled from the spec: `grouper_it` lives in the excluded
`smartie.util` collaborator (the spec lists "hex/ASCII dumping" among
the presentation-layer externals); its evident contract is grouping an
iterable into chunks of `n`. -/
def grouper_it (n : Nat) (bs : List Nat) : List (List Nat) :=
  if h : bs = [] ∨ n = 0 then []
  else bs.take n :: grouper_it n (bs.drop n)
  termination_by bs.length
  decreasing_by
    simp_wf
    rcases Nat.eq_zero_or_pos n with h0 | h0
    · exact absurd (Or.inr h0) h
    · have hne : bs ≠ [] := fun he => h (Or.inl he)
      have hpos : 0 < bs.length := List.length_pos.mpr hne
      have hdrop : (bs.drop n).length = bs.length - n := List.length_drop n bs
      omega

/-- The ASCII column's rendering of one byte
(cli.py line 50): the character itself for printable ASCII, a dot
otherwise. -/
def asciiChar (b : Nat) : Char :=
  if 32 ≤ b ∧ b ≤ 126 then Char.ofNat b else '.'

/-- One row of the hex/ASCII dump table (cli.py lines 47-53): the hex
column joins `f"{byte:02X}"` with spaces, the ASCII column
concatenates `asciiChar`. -/
def dumpRow (chunk : List Nat) : String × String :=
  (String.intercalate " " (chunk.map formatHex2),
   String.mk (chunk.map asciiChar))

/-- The full hex/ASCII dump of a byte array (cli.py lines 44-53):
one row per 20-byte chunk. -/
def dumpRows (bs : List Nat) : List (String × String) :=
  (grouper_it 20 bs).map dumpRow

/-- What `print_structure` puts in a row's Value column. -/
inductive Rendered where
  | hexdump : List (String × String) → Rendered
  | hexint : String → Rendered
  | nested : List (String × String × Rendered) → Rendered
deriving Repr

mutual

/-- The value-column rendering dispatch of `print_structure`
(cli.py lines 39-75). -/
def renderValue : CValue → Rendered
  | .array bs => .hexdump (dumpRows bs)
  | .u128 n => .hexint (formatHex3 n)
  | .cstruct fs => .nested (printFields 0 fs)
  | .scalar n => .hexint (formatHex3 n)

/-- The row loop of `print_structure` (cli.py lines 21-77): one row
per field, carrying the running bit offset. -/
def printFields : Nat → List (FieldDecl × CValue) → List (String × String × Rendered)
  | _, [] => []
  | offset, (d, v) :: rest =>
      (labelOf offset (offset + fieldBitcount d), d.name, renderValue v)
        :: printFields (offset + fieldBitcount d) rest

end

/-- `print_structure` itself: rows for a structure's fields starting at
offset 0. -/
def print_structure (fields : List (FieldDecl × CValue)) : List (String × String × Rendered) :=
  printFields 0 fields

/-! ## Event-trace model of the CLI commands

Each CLI command is modelled as the sequence of observable events it
performs on device handles: acquiring a handle (`__enter__` of the
`with` block), invoking a device accessor or command, printing to the
console, and releasing the handle (`__exit__`).  Python's `with`
statement runs `__exit__` on every exit path — normal fall-through,
`return`, or a propagating exception — which the wrapper below encodes
by appending `release` regardless of the body's outcome. -/

inductive Event where
  | acquire
  | release
  | access : String → Event
  | print : String → Event
deriving Repr, DecidableEq

/-- How a command body finishes: normally, or with a named uncaught
exception. -/
inductive Outcome where
  | normal
  | raised : String → Outcome
deriving Repr, DecidableEq

/-- Python `with device:` semantics over a body's trace and outcome:
the handle is acquired first and released exactly once afterwards, on
normal and exceptional exits alike. -/
def withDevice (body : List Event × Outcome) : List Event × Outcome :=
  (Event.acquire :: body.1 ++ [Event.release], body.2)

/-- The kind the opened device turns out to be at runtime: the
`isinstance(device, SCSIDevice)` / `isinstance(device, NVMEDevice)`
discrimination of `debug_command`, plus the fall-through case. -/
inductive DeviceKind where
  | scsi
  | nvme
  | other
deriving Repr, DecidableEq

/-- The SCSI branch's dispatch dictionary (cli.py lines 173-178):
literal keys mapped to the bound method each invokes. -/
def scsiDispatch (c : String) : Option String :=
  if c = "inquiry" then some "inquiry"
  else if c = "identify" then some "identify"
  else if c = "smart" then some "smart"
  else if c = "thresholds" then some "smart_thresholds"
  else none

/-- The NVMe branch's dispatch dictionary (cli.py line 185). -/
def nvmeDispatch (c : String) : Option String :=
  if c = "identify" then some "identify"
  else if c = "smart" then some "smart"
  else none

/-- The message printed when the dictionary lookup returns `None`
(cli.py lines 180, 189). -/
def unknownCommandMessage : String :=
  "Command unknown or unsupported by this device."

/-- The body of `debug_command`'s `with` block (cli.py lines 172-194):
dispatch on the runtime device kind, look the command name up in that
kind's dictionary, and either invoke the method, print the benign
message and return, or raise `NotImplementedError`. -/
def debugBody (kind : DeviceKind) (c : String) : List Event × Outcome :=
  match kind with
  | .scsi =>
      match scsiDispatch c with
      | some op => ([Event.access op], Outcome.normal)
      | none => ([Event.print unknownCommandMessage], Outcome.normal)
  | .nvme =>
      match nvmeDispatch c with
      | some op => ([Event.access op], Outcome.normal)
      | none => ([Event.print unknownCommandMessage], Outcome.normal)
  | .other => ([], Outcome.raised "NotImplementedError")

/-- `debug_command` (cli.py lines 164-201): everything happens inside
`with get_device(path) as device:`. -/
def debug_command (kind : DeviceKind) (c : String) : List Event × Outcome :=
  withDevice (debugBody kind c)

/-- The per-device body of `enumerate_command`'s loop
(cli.py lines 100-107): the row reads `path`, `model`, `serial` and
`temperature` inside `with device:`. -/
def enumerateBody : List Event × Outcome :=
  ([Event.access "path", Event.access "model", Event.access "serial",
    Event.access "temperature"], Outcome.normal)

/-- `enumerate_command` (cli.py lines 90-110) over however many
devices `get_all_devices()` yields: one `with` block per device. -/
def enumerate_command (devices : List Unit) : List Event :=
  (devices.map (fun _ => (withDevice enumerateBody).1)).flatten

/-- One SMART attribute row's source data, as `details_command` reads
it from a `smart_table` entry (cli.py lines 138-146). -/
structure AttrUnit where
  name : String
deriving Repr, DecidableEq

structure SmartEntry where
  id : Nat
  name : String
  current_value : Nat
  worst_value : Nat
  threshold : Nat
  unit : AttrUnit
deriving Repr, DecidableEq

/-- The columns `details_command` renders for one SMART attribute
(cli.py lines 139-146). -/
def smartRow (e : SmartEntry) : List String :=
  [toString e.id, e.name, toString e.current_value, toString e.worst_value,
   toString e.threshold, e.unit.name]

/-- The SMART-attribute rows `details_command` adds: one per entry of
`device.smart_table.values()`, in the mapping's encounter order
(cli.py line 138).  The mapping is modelled as an association list
from attribute id to entry. -/
def detailsSmartRows (table : List (Nat × SmartEntry)) : List (List String) :=
  (table.map Prod.snd).map smartRow

/-- The body of `details_command`'s `with` block
(cli.py lines 123-148): reads `model`, `serial`, `temperature` and
`smart_table` from the device. -/
def detailsBody : List Event × Outcome :=
  ([Event.access "model", Event.access "serial", Event.access "temperature",
    Event.access "smart_table"], Outcome.normal)

/-- `details_command`'s device-event trace (cli.py lines 115-151). -/
def details_command : List Event :=
  (withDevice detailsBody).1

/-- Scope checker for handle discipline: walks a trace with an
"inside a with block" flag; a device access or a release outside an
open block, a nested acquire, or an unclosed block at the end is
rejected. -/
def scopedRun : List Event → Bool → Option Bool
  | [], inside => some inside
  | Event.acquire :: rest, inside =>
      if inside then none else scopedRun rest true
  | Event.release :: rest, inside =>
      if inside then scopedRun rest false else none
  | Event.access _ :: rest, inside =>
      if inside then scopedRun rest inside else none
  | Event.print _ :: rest, inside => scopedRun rest inside

/-- A trace is well scoped when the checker runs to completion and
ends outside any block. -/
def scopedOk (es : List Event) : Bool :=
  scopedRun es false == some false

/-! ## The structure codec

Modelled from the spec: the Structure Codec component (design document
sections 3 and 4.1) has no source file in this repository — only its
CLI consumer is present.  Per the spec, a `StructureDescription` is an
ordered sequence of named fields with bit widths whose sum must equal
the declared total size in bits; `decode` extracts each field as the
unsigned integer in its bit span, little-endian, failing with
`SizeMismatch` on a length mismatch, and `encode` is the exact
inverse.  Buffers are lists of bytes; a buffer's little-endian value
is a natural number, and field `i` occupies the bits at the cumulative
offset of the widths before it. -/

structure FieldSpec where
  name : String
  bit_width : Nat
deriving Repr, DecidableEq

structure StructureDescription where
  fields : List FieldSpec
  total_size : Nat
deriving Repr, DecidableEq

/-- Sum of the declared bit widths. -/
def totalBits (fs : List FieldSpec) : Nat :=
  (fs.map FieldSpec.bit_width).sum

/-- The spec's description invariant: the field widths fill the
declared total size exactly. -/
def validDescription (d : StructureDescription) : Prop :=
  totalBits d.fields = d.total_size * 8

instance (d : StructureDescription) : Decidable (validDescription d) := by
  unfold validDescription; infer_instance

/-- Little-endian value of a byte buffer: byte 0 is least
significant, matching the host byte order the spec fixes. -/
def bytesToNat : List Nat → Nat
  | [] => 0
  | b :: bs => b + 256 * bytesToNat bs

/-- The `len`-byte little-endian buffer holding `n % 256 ^ len`. -/
def natToBytes : Nat → Nat → List Nat
  | 0, _ => []
  | len + 1, n => n % 256 :: natToBytes len (n / 256)

/-- Extract each field's unsigned integer from the buffer value,
least-significant field first: field `i` is the `bit_width i` bits at
the cumulative offset of the earlier widths. -/
def decodeFields : List FieldSpec → Nat → List Nat
  | [], _ => []
  | f :: fs, n => n % 2 ^ f.bit_width :: decodeFields fs (n / 2 ^ f.bit_width)

/-- Pack field values back into a buffer value, the inverse
packing. -/
def encodeFields : List FieldSpec → List Nat → Nat
  | [], _ => 0
  | _, [] => 0
  | f :: fs, v :: vs => v + 2 ^ f.bit_width * encodeFields fs vs

/-- Every value fits its field's width. -/
def valuesInRange : List FieldSpec → List Nat → Prop
  | [], [] => True
  | f :: fs, v :: vs => v < 2 ^ f.bit_width ∧ valuesInRange fs vs
  | _, _ => False

instance : (fs : List FieldSpec) → (vs : List Nat) → Decidable (valuesInRange fs vs)
  | [], [] => isTrue trivial
  | _ :: _, [] => isFalse id
  | [], _ :: _ => isFalse id
  | f :: fs, v :: vs =>
      have hl : Decidable (v < 2 ^ f.bit_width) := Nat.decLt v (2 ^ f.bit_width)
      have hr : Decidable (valuesInRange fs vs) := instDecidableValuesInRange fs vs
      instDecidableAnd

/-- A decoded instance: its description plus the cached field values
(the owned buffer is recovered exactly by `encode`). -/
structure DecodedStructure where
  description : StructureDescription
  values : List Nat
deriving Repr, DecidableEq

/-- `decode(description, bytes)`: fails with `SizeMismatch` when the
buffer length differs from the declared total size, otherwise yields
the decoded instance. -/
def decode (d : StructureDescription) (buf : List Nat) : Except String DecodedStructure :=
  if buf.length = d.total_size then
    Except.ok ⟨d, decodeFields d.fields (bytesToNat buf)⟩
  else
    Except.error "SizeMismatch"

/-- `encode(DecodedStructure) -> bytes`: pack the field values and lay
them out as a buffer of the declared total size. -/
def encode (x : DecodedStructure) : List Nat :=
  natToBytes x.description.total_size (encodeFields x.description.fields x.values)

/-! ## Theorems -/

/-- C2: a 2-tuple field (no explicit bit count) gets width
`sizeof(type) * 8`; a 3-tuple field's third element is its bit width
verbatim, and `print_structure` labels a lone field with exactly that
width. -/
theorem bitcount_fallback :
    (∀ nm s, fieldBitcount ⟨nm, s, none⟩ = s * 8) ∧
    (∀ nm s b, fieldBitcount ⟨nm, s, some b⟩ = b) ∧
    (∀ nm s v, print_structure [(⟨nm, s, none⟩, v)] =
        [(labelOf 0 (s * 8), nm, renderValue v)]) ∧
    (∀ nm s b v, print_structure [(⟨nm, s, some b⟩, v)] =
        [(labelOf 0 b, nm, renderValue v)]) := by
  refine ⟨fun nm s => rfl, fun nm s b => rfl, fun nm s v => ?_, fun nm s b v => ?_⟩ <;>
    simp [print_structure, printFields, fieldBitcount]

/-- C5: `print_structure` dispatches on the value's kind: arrays get
the hex/ASCII dump (never an integer rendering), `c_uint128` and every
other scalar get the `0x%03X` integer rendering, and nested structures
are rendered recursively. -/
theorem render_dispatch :
    (∀ bs, renderValue (CValue.array bs) = Rendered.hexdump (dumpRows bs)) ∧
    (∀ bs s, renderValue (CValue.array bs) ≠ Rendered.hexint s) ∧
    (∀ n, renderValue (CValue.u128 n) = Rendered.hexint (formatHex3 n)) ∧
    (∀ fs, renderValue (CValue.cstruct fs) = Rendered.nested (print_structure fs)) ∧
    (∀ n, renderValue (CValue.scalar n) = Rendered.hexint (formatHex3 n)) := by
  refine ⟨fun bs => ?_, fun bs s => ?_, fun n => ?_, fun fs => ?_, fun n => ?_⟩ <;>
    simp [renderValue, print_structure]

/-- C8: the debug operation set is exactly inquiry/identify/smart/
thresholds for SCSI (thresholds bound to `smart_thresholds`) and
exactly identify/smart for NVMe, and the branch taken is selected by
the device's runtime kind. -/
theorem debug_operation_sets :
    (∀ c, (scsiDispatch c).isSome ↔
        c ∈ ["inquiry", "identify", "smart", "thresholds"]) ∧
    scsiDispatch "inquiry" = some "inquiry" ∧
    scsiDispatch "identify" = some "identify" ∧
    scsiDispatch "smart" = some "smart" ∧
    scsiDispatch "thresholds" = some "smart_thresholds" ∧
    (∀ c, (nvmeDispatch c).isSome ↔ c ∈ ["identify", "smart"]) ∧
    nvmeDispatch "identify" = some "identify" ∧
    nvmeDispatch "smart" = some "smart" ∧
    (∀ c, debugBody DeviceKind.scsi c =
        match scsiDispatch c with
        | some op => ([Event.access op], Outcome.normal)
        | none => ([Event.print unknownCommandMessage], Outcome.normal)) ∧
    (∀ c, debugBody DeviceKind.nvme c =
        match nvmeDispatch c with
        | some op => ([Event.access op], Outcome.normal)
        | none => ([Event.print unknownCommandMessage], Outcome.normal)) := by
  refine ⟨fun c => ?_, rfl, rfl, rfl, rfl, fun c => ?_, rfl, rfl,
      fun c => rfl, fun c => rfl⟩
  · unfold scsiDispatch
    split_ifs with h1 h2 h3 h4 <;> simp_all
  · unfold nvmeDispatch
    split_ifs with h1 h2 <;> simp_all

/-- C10: on a device that is neither SCSI nor NVMe, `debug` raises
`NotImplementedError` with no command sent, and the `with` block still
releases the handle on that exceptional exit. -/
theorem debug_unknown_kind :
    ∀ c, debug_command DeviceKind.other c =
      ([Event.acquire, Event.release], Outcome.raised "NotImplementedError") :=
  fun _ => rfl

/-- C1: for an NVMe device, `debug thresholds` or `debug inquiry`
prints the benign message and finishes normally without invoking any
device command; likewise for SCSI with any command name missing from
its dispatch table. -/
theorem debug_unsupported_benign :
    ∀ (kind : DeviceKind) (c : String),
      (kind = DeviceKind.nvme ∧ (c = "thresholds" ∨ c = "inquiry")) ∨
        (kind = DeviceKind.scsi ∧ scsiDispatch c = none) →
      debug_command kind c =
        ([Event.acquire, Event.print unknownCommandMessage, Event.release],
          Outcome.normal) := by
  rintro kind c (⟨hk, hc | hc⟩ | ⟨hk, hc⟩) <;> subst hk <;>
    first
      | (subst hc; rfl)
      | simp [debug_command, withDevice, debugBody, hc]

/-- Witness for C1 at the concrete input the spec calls out:
NVMe + thresholds. -/
theorem debug_unsupported_benign_witness :
    debug_command DeviceKind.nvme "thresholds" =
      ([Event.acquire, Event.print unknownCommandMessage, Event.release],
        Outcome.normal) :=
  debug_unsupported_benign DeviceKind.nvme "thresholds" (Or.inl ⟨rfl, Or.inl rfl⟩)

/-- C7: `details` renders one SMART row per `smart_table` entry, in
encounter order, showing id, name, current, worst, threshold and unit
name. -/
theorem details_smart_rows :
    ∀ table : List (Nat × SmartEntry),
      detailsSmartRows table = (table.map Prod.snd).map smartRow ∧
      (detailsSmartRows table).length = table.length ∧
      ∀ (i : Nat) (e : SmartEntry), (table.map Prod.snd)[i]? = some e →
        (detailsSmartRows table)[i]? =
          some [toString e.id, e.name, toString e.current_value,
                toString e.worst_value, toString e.threshold, e.unit.name] := by
  intro table
  refine ⟨rfl, by simp [detailsSmartRows], fun i e h => ?_⟩
  show ((table.map Prod.snd).map smartRow)[i]? = _
  rw [List.getElem?_map, h]
  rfl

/-- Witness for C7 on a one-entry table. -/
theorem details_smart_rows_witness :
    detailsSmartRows [(194, ⟨194, "temperature", 35, 40, 0, ⟨"CELSIUS"⟩⟩)] =
        [(([(194, (⟨194, "temperature", 35, 40, 0, ⟨"CELSIUS"⟩⟩ : SmartEntry))].map Prod.snd).map smartRow)].flatten ∧
    (detailsSmartRows [(194, ⟨194, "temperature", 35, 40, 0, ⟨"CELSIUS"⟩⟩)])[0]? =
      some ["194", "temperature", "35", "40", "0", "CELSIUS"] := by
  have h := details_smart_rows [(194, ⟨194, "temperature", 35, 40, 0, ⟨"CELSIUS"⟩⟩)]
  exact ⟨by simpa using h.1, h.2.2 0 ⟨194, "temperature", 35, 40, 0, ⟨"CELSIUS"⟩⟩ rfl⟩

/-- The scope checker distributes over concatenation. -/
theorem scopedRun_append (xs ys : List Event) (s : Bool) :
    scopedRun (xs ++ ys) s = (scopedRun xs s).bind (fun s2 => scopedRun ys s2) := by
  induction xs generalizing s with
  | nil => rfl
  | cons e rest ih => cases e <;> cases s <;> simp [scopedRun, ih]

/-- Every `enumerate` trace is well scoped, however many devices are
found. -/
theorem enumerate_scoped_aux :
    ∀ devices : List Unit, scopedRun (enumerate_command devices) false = some false := by
  intro devices
  induction devices with
  | nil => rfl
  | cons d rest ih =>
      show scopedRun ((withDevice enumerateBody).1 ++ enumerate_command rest) false
        = some false
      rw [scopedRun_append]
      simpa using ih

/-- `enumerate` releases exactly one handle per device. -/
theorem enumerate_release_count :
    ∀ devices : List Unit,
      (enumerate_command devices).count Event.release = devices.length := by
  intro devices
  induction devices with
  | nil => rfl
  | cons d rest ih =>
      show ((withDevice enumerateBody).1 ++ enumerate_command rest).count Event.release
        = rest.length + 1
      rw [List.count_append, ih]
      simp [withDevice, enumerateBody]
      omega

/-- C6: every CLI command keeps all device accesses inside the
`with` block that owns the handle, acquiring before any access and
releasing exactly once on every exit path — including `debug`'s
early return and its `NotImplementedError` raise. -/
theorem cli_with_scoping :
    ∀ (devices : List Unit) (kind : DeviceKind) (c : String),
      scopedOk (enumerate_command devices) = true ∧
      (enumerate_command devices).count Event.release = devices.length ∧
      scopedOk details_command = true ∧
      scopedOk (debug_command kind c).1 = true ∧
      (debug_command kind c).1.count Event.release = 1 := by
  intro devices kind c
  refine ⟨?_, enumerate_release_count devices, rfl, ?_, ?_⟩
  · unfold scopedOk
    rw [enumerate_scoped_aux devices]
    rfl
  · cases kind with
    | scsi =>
        rcases h : scsiDispatch c with _ | op <;>
          simp [scopedOk, debug_command, withDevice, debugBody, h, scopedRun]
    | nvme =>
        rcases h : nvmeDispatch c with _ | op <;>
          simp [scopedOk, debug_command, withDevice, debugBody, h, scopedRun]
    | other => rfl
  · cases kind with
    | scsi =>
        rcases h : scsiDispatch c with _ | op <;>
          simp [debug_command, withDevice, debugBody, h, List.count_cons,
            List.count_nil]
    | nvme =>
        rcases h : nvmeDispatch c with _ | op <;>
          simp [debug_command, withDevice, debugBody, h, List.count_cons,
            List.count_nil]
    | other => rfl

/-! ### Rows and offsets of `print_structure` (C3) -/

/-- The cumulative bit offset at which field `i` starts: the sum of
the widths of the fields before it. -/
def offsetBefore (fields : List (FieldDecl × CValue)) (i : Nat) : Nat :=
  ((fields.take i).map (fun p => fieldBitcount p.1)).sum

theorem printFields_length (off : Nat) (fields : List (FieldDecl × CValue)) :
    (printFields off fields).length = fields.length := by
  induction fields generalizing off with
  | nil => simp [printFields]
  | cons p rest ih =>
      obtain ⟨d, v⟩ := p
      simp [printFields, ih]

theorem printFields_row (fields : List (FieldDecl × CValue)) :
    ∀ (off i : Nat) (d : FieldDecl) (v : CValue), fields[i]? = some (d, v) →
      (printFields off fields)[i]? =
        some (labelOf (off + offsetBefore fields i)
                (off + offsetBefore fields i + fieldBitcount d),
              d.name, renderValue v) := by
  induction fields with
  | nil => intro off i d v h; simp at h
  | cons p rest ih =>
      obtain ⟨d0, v0⟩ := p
      intro off i d v h
      cases i with
      | zero =>
          simp only [List.getElem?_cons_zero, Option.some.injEq] at h
          obtain ⟨hd, hv⟩ := Prod.mk.injEq .. ▸ h
          simp [printFields, offsetBefore, ← hd, ← hv]
      | succ i =>
          simp only [List.getElem?_cons_succ] at h
          have hrow := ih (off + fieldBitcount d0) i d v h
          have hoff : off + fieldBitcount d0 + offsetBefore rest i
              = off + offsetBefore ((d0, v0) :: rest) (i + 1) := by
            simp [offsetBefore, List.take_succ_cons]
            omega
          simp only [printFields, List.getElem?_cons_succ]
          rw [hrow, hoff]

/-- C3: `print_structure` emits exactly one row per declared field, in
declared order, each labelled `[offset : offset + bit width]` where
the offset is the sum of the bit widths of the earlier fields (0 for
the first field). -/
theorem print_structure_rows :
    ∀ fields : List (FieldDecl × CValue),
      (print_structure fields).length = fields.length ∧
      offsetBefore fields 0 = 0 ∧
      ∀ (i : Nat) (d : FieldDecl) (v : CValue), fields[i]? = some (d, v) →
        (print_structure fields)[i]? =
          some (labelOf (offsetBefore fields i)
                  (offsetBefore fields i + fieldBitcount d),
                d.name, renderValue v) := by
  intro fields
  refine ⟨printFields_length 0 fields, rfl, fun i d v h => ?_⟩
  have := printFields_row fields 0 i d v h
  simpa using this

/-- Witness for C3 on a concrete two-field structure: the second row
starts where the first field's 4 bits end. -/
theorem print_structure_rows_witness :
    (print_structure [(⟨"lo", 1, some 4⟩, CValue.scalar 5),
        (⟨"hi", 1, none⟩, CValue.scalar 9)]).length = 2 ∧
    (print_structure [(⟨"lo", 1, some 4⟩, CValue.scalar 5),
        (⟨"hi", 1, none⟩, CValue.scalar 9)])[1]? =
      some (labelOf 4 (4 + 8), "hi", renderValue (CValue.scalar 9)) := by
  have h := print_structure_rows [(⟨"lo", 1, some 4⟩, CValue.scalar 5),
    (⟨"hi", 1, none⟩, CValue.scalar 9)]
  refine ⟨h.1, ?_⟩
  have h2 := h.2.2 1 ⟨"hi", 1, none⟩ (CValue.scalar 9) rfl
  simpa [offsetBefore, fieldBitcount] using h2

/-! ### The hex/ASCII dump (C9) -/

/-- An uppercase hexadecimal digit: 0-9 or A-F. -/
def isHexUpperDigit (ch : Char) : Bool :=
  (48 ≤ ch.toNat && ch.toNat ≤ 57) || (65 ≤ ch.toNat && ch.toNat ≤ 70)

theorem grouper_it_empty (n : Nat) : grouper_it n [] = [] := by
  rw [grouper_it]; simp

theorem grouper_it_flatten_aux (n : Nat) (hn : n ≠ 0) :
    ∀ (k : Nat) (bs : List Nat), bs.length ≤ k → (grouper_it n bs).flatten = bs := by
  intro k
  induction k with
  | zero =>
      intro bs hb
      have hbs : bs = [] := by
        cases bs with
        | nil => rfl
        | cons a l => simp at hb
      subst hbs
      rw [grouper_it_empty]
      rfl
  | succ k ih =>
      intro bs hb
      rw [grouper_it]
      split_ifs with h
      · rcases h with h | h
        · simp [h]
        · exact absurd h hn
      · have hne : bs ≠ [] := fun he => h (Or.inl he)
        have hpos : 0 < bs.length := List.length_pos.mpr hne
        have hlen : (bs.drop n).length ≤ k := by
          have hd : (bs.drop n).length = bs.length - n := List.length_drop n bs
          omega
        simp only [List.flatten_cons]
        rw [ih (bs.drop n) hlen, List.take_append_drop]

theorem grouper_it_chunk_le (n : Nat) :
    ∀ (k : Nat) (bs : List Nat), bs.length ≤ k →
      ∀ c ∈ grouper_it n bs, c.length ≤ n := by
  intro k
  induction k with
  | zero =>
      intro bs hb c hc
      have hbs : bs = [] := by
        cases bs with
        | nil => rfl
        | cons a l => simp at hb
      rw [hbs, grouper_it_empty] at hc
      simp at hc
  | succ k ih =>
      intro bs hb c hc
      rw [grouper_it] at hc
      split_ifs at hc with h
      · simp at hc
      · have hne : bs ≠ [] := fun he => h (Or.inl he)
        have hpos : 0 < bs.length := List.length_pos.mpr hne
        have hlen : (bs.drop n).length ≤ k := by
          have hd : (bs.drop n).length = bs.length - n := List.length_drop n bs
          omega
        rcases List.mem_cons.mp hc with hc | hc
        · subst hc
          simp [List.length_take]
        · exact ih (bs.drop n) hlen c hc

theorem grouper_it_chunk_full (n : Nat) (hn : n ≠ 0) :
    ∀ (k : Nat) (bs : List Nat), bs.length ≤ k →
      ∀ i : Nat, i + 1 < (grouper_it n bs).length →
        ((grouper_it n bs).getD i []).length = n := by
  intro k
  induction k with
  | zero =>
      intro bs hb i hi
      have hbs : bs = [] := by
        cases bs with
        | nil => rfl
        | cons a l => simp at hb
      rw [hbs, grouper_it_empty] at hi
      simp at hi
  | succ k ih =>
      intro bs hb i hi
      rw [grouper_it] at hi ⊢
      split_ifs at hi ⊢ with h
      · simp at hi
      · have hne : bs ≠ [] := fun he => h (Or.inl he)
        have hpos : 0 < bs.length := List.length_pos.mpr hne
        have hlen : (bs.drop n).length ≤ k := by
          have hd : (bs.drop n).length = bs.length - n := List.length_drop n bs
          omega
        cases i with
        | zero =>
            simp only [List.length_cons] at hi
            have hrest : grouper_it n (bs.drop n) ≠ [] := by
              intro he
              rw [he] at hi
              simp at hi
            have hdrop : bs.drop n ≠ [] := by
              intro he
              rw [he, grouper_it_empty] at hrest
              exact hrest rfl
            have hgt : n < bs.length := by
              have hd : (bs.drop n).length = bs.length - n := List.length_drop n bs
              have : 0 < (bs.drop n).length := List.length_pos.mpr hdrop
              omega
            simp [List.length_take]
            omega
        | succ i =>
            simp only [List.length_cons] at hi
            rw [List.getD_cons_succ]
            exact ih (bs.drop n) hlen i (by omega)

set_option maxRecDepth 8192 in
theorem formatHex2_facts :
    ∀ b : Nat, b < 256 → (formatHex2 b).length = 2 ∧
      ∀ ch ∈ (formatHex2 b).data, isHexUpperDigit ch = true := by
  decide

set_option maxRecDepth 8192 in
theorem asciiChar_facts :
    ∀ b : Nat, b < 256 →
      ((32 ≤ b ∧ b ≤ 126) → (asciiChar b).toNat = b) ∧
      (¬(32 ≤ b ∧ b ≤ 126) → asciiChar b = '.') := by
  decide

/-- C9: the byte-array dump chunks the bytes into rows of at most 20
(only the final row shorter), covers every byte exactly once in order,
renders each byte's hex column as two uppercase hex digits and its
ASCII column as the character itself exactly for printable ASCII
(32..126), a dot otherwise. -/
theorem byte_array_dump :
    ∀ bs : List Nat, (∀ b ∈ bs, b < 256) →
      dumpRows bs = (grouper_it 20 bs).map dumpRow ∧
      (grouper_it 20 bs).flatten = bs ∧
      (∀ c ∈ grouper_it 20 bs, c.length ≤ 20) ∧
      (∀ i : Nat, i + 1 < (grouper_it 20 bs).length →
          ((grouper_it 20 bs).getD i []).length = 20) ∧
      (∀ c ∈ grouper_it 20 bs, dumpRow c =
          (String.intercalate " " (c.map formatHex2),
            String.mk (c.map asciiChar))) ∧
      (∀ b ∈ bs, (formatHex2 b).length = 2 ∧
          (∀ ch ∈ (formatHex2 b).data, isHexUpperDigit ch = true) ∧
          ((32 ≤ b ∧ b ≤ 126) → (asciiChar b).toNat = b) ∧
          (¬(32 ≤ b ∧ b ≤ 126) → asciiChar b = '.')) := by
  intro bs hlt
  refine ⟨rfl, grouper_it_flatten_aux 20 (by omega) bs.length bs le_rfl,
    grouper_it_chunk_le 20 bs.length bs le_rfl,
    grouper_it_chunk_full 20 (by omega) bs.length bs le_rfl,
    fun c hc => rfl, fun b hb => ?_⟩
  have h1 := formatHex2_facts b (hlt b hb)
  have h2 := asciiChar_facts b (hlt b hb)
  exact ⟨h1.1, h1.2, h2.1, h2.2⟩

/-- Witness for C9 on a 21-byte buffer: forces a full first row of 20
bytes and a short final row. -/
theorem byte_array_dump_witness :
    dumpRows (65 :: List.replicate 20 0) =
        (grouper_it 20 (65 :: List.replicate 20 0)).map dumpRow ∧
      (grouper_it 20 (65 :: List.replicate 20 0)).flatten =
        (65 :: List.replicate 20 0) ∧
      (∀ c ∈ grouper_it 20 (65 :: List.replicate 20 0), c.length ≤ 20) ∧
      (∀ i : Nat, i + 1 < (grouper_it 20 (65 :: List.replicate 20 0)).length →
          ((grouper_it 20 (65 :: List.replicate 20 0)).getD i []).length = 20) ∧
      (∀ c ∈ grouper_it 20 (65 :: List.replicate 20 0), dumpRow c =
          (String.intercalate " " (c.map formatHex2),
            String.mk (c.map asciiChar))) ∧
      (∀ b ∈ (65 :: List.replicate 20 0), (formatHex2 b).length = 2 ∧
          (∀ ch ∈ (formatHex2 b).data, isHexUpperDigit ch = true) ∧
          ((32 ≤ b ∧ b ≤ 126) → (asciiChar b).toNat = b) ∧
          (¬(32 ≤ b ∧ b ≤ 126) → asciiChar b = '.')) :=
  byte_array_dump (65 :: List.replicate 20 0) (by decide)

/-! ### Codec round trip (C4) -/

/-- Splitting a remainder at a factor:
`n % (a * b) = n % a + a * (n / a % b)`. -/
theorem mod_mul_decomp (n a b : Nat) :
    n % (a * b) = n % a + a * (n / a % b) := by
  conv_lhs => rw [← Nat.div_add_mod (n % (a * b)) a]
  rw [Nat.mod_mul_right_div_self, Nat.mod_mod_of_dvd _ ⟨b, rfl⟩, Nat.add_comm]

theorem decode_encode_fields (fs : List FieldSpec) :
    ∀ n : Nat, encodeFields fs (decodeFields fs n) = n % 2 ^ totalBits fs := by
  induction fs with
  | nil => intro n; simp [encodeFields, decodeFields, totalBits, Nat.mod_one]
  | cons f fs ih =>
      intro n
      have hsum : totalBits (f :: fs) = f.bit_width + totalBits fs := by
        simp [totalBits]
      rw [decodeFields, encodeFields, ih (n / 2 ^ f.bit_width), hsum,
        Nat.pow_add, mod_mul_decomp]

theorem decodeFields_inRange (fs : List FieldSpec) :
    ∀ n : Nat, valuesInRange fs (decodeFields fs n) := by
  induction fs with
  | nil => intro n; trivial
  | cons f fs ih =>
      intro n
      exact ⟨Nat.mod_lt _ (Nat.pos_pow_of_pos _ (by omega)), ih _⟩

theorem encodeFields_lt (fs : List FieldSpec) :
    ∀ vs : List Nat, valuesInRange fs vs →
      encodeFields fs vs < 2 ^ totalBits fs := by
  induction fs with
  | nil =>
      intro vs hv
      cases vs with
      | nil => simp [encodeFields, totalBits]
      | cons v vs => exact absurd hv id
  | cons f fs ih =>
      intro vs hv
      cases vs with
      | nil => exact absurd hv id
      | cons v vs =>
          obtain ⟨hvlt, hrest⟩ := hv
          have hR := ih vs hrest
          have hsum : totalBits (f :: fs) = f.bit_width + totalBits fs := by
            simp [totalBits]
          rw [encodeFields, hsum, Nat.pow_add]
          calc v + 2 ^ f.bit_width * encodeFields fs vs
              < 2 ^ f.bit_width * encodeFields fs vs + 2 ^ f.bit_width := by omega
            _ = 2 ^ f.bit_width * (encodeFields fs vs + 1) := by ring
            _ ≤ 2 ^ f.bit_width * 2 ^ totalBits fs :=
                Nat.mul_le_mul_left _ (by omega)

theorem encode_decode_fields (fs : List FieldSpec) :
    ∀ vs : List Nat, valuesInRange fs vs →
      decodeFields fs (encodeFields fs vs) = vs := by
  induction fs with
  | nil =>
      intro vs hv
      cases vs with
      | nil => rfl
      | cons v vs => exact absurd hv id
  | cons f fs ih =>
      intro vs hv
      cases vs with
      | nil => exact absurd hv id
      | cons v vs =>
          obtain ⟨hvlt, hrest⟩ := hv
          have hpos : 0 < 2 ^ f.bit_width := Nat.pos_pow_of_pos _ (by omega)
          rw [encodeFields, decodeFields,
            Nat.add_mul_mod_self_left, Nat.mod_eq_of_lt hvlt,
            Nat.add_mul_div_left _ _ hpos, Nat.div_eq_of_lt hvlt,
            Nat.zero_add, ih vs hrest]

theorem natToBytes_length :
    ∀ (len n : Nat), (natToBytes len n).length = len := by
  intro len
  induction len with
  | zero => intro n; rfl
  | succ len ih => intro n; simp [natToBytes, ih]

theorem bytesToNat_lt :
    ∀ bs : List Nat, (∀ b ∈ bs, b < 256) → bytesToNat bs < 256 ^ bs.length := by
  intro bs
  induction bs with
  | nil => intro hb; simp [bytesToNat]
  | cons b bs ih =>
      intro hb
      have hblt : b < 256 := hb b (List.mem_cons_self b bs)
      have hrest := ih (fun x hx => hb x (List.mem_cons_of_mem b hx))
      rw [bytesToNat, List.length_cons, Nat.pow_succ, Nat.mul_comm (256 ^ bs.length) 256]
      calc b + 256 * bytesToNat bs
          < 256 * bytesToNat bs + 256 := by omega
        _ = 256 * (bytesToNat bs + 1) := by ring
        _ ≤ 256 * 256 ^ bs.length := Nat.mul_le_mul_left _ (by omega)

theorem natToBytes_bytesToNat :
    ∀ bs : List Nat, (∀ b ∈ bs, b < 256) →
      natToBytes bs.length (bytesToNat bs) = bs := by
  intro bs
  induction bs with
  | nil => intro hb; rfl
  | cons b bs ih =>
      intro hb
      have hblt : b < 256 := hb b (List.mem_cons_self b bs)
      have hrest := ih (fun x hx => hb x (List.mem_cons_of_mem b hx))
      rw [List.length_cons, bytesToNat, natToBytes,
        Nat.add_mul_mod_self_left, Nat.mod_eq_of_lt hblt,
        Nat.add_mul_div_left _ _ (by omega : (0:Nat) < 256),
        Nat.div_eq_of_lt hblt, Nat.zero_add, hrest]

theorem pow256_eq (k : Nat) : 256 ^ k = 2 ^ (8 * k) := by
  rw [Nat.pow_mul]

/-- C4: for every valid description and matching buffer, decoding
succeeds and re-encoding reproduces the buffer byte for byte, and
decoding the re-encoded bytes gives back the same decoded structure. -/
theorem codec_round_trip :
    ∀ (d : StructureDescription) (buf : List Nat),
      validDescription d → buf.length = d.total_size →
      (∀ b ∈ buf, b < 256) →
      ∃ x : DecodedStructure,
        decode d buf = Except.ok x ∧ encode x = buf ∧
        decode d (encode x) = Except.ok x := by
  intro d buf hvalid hlen hbytes
  have henc : encode ⟨d, decodeFields d.fields (bytesToNat buf)⟩ = buf := by
    show natToBytes d.total_size
        (encodeFields d.fields (decodeFields d.fields (bytesToNat buf))) = buf
    rw [decode_encode_fields, hvalid]
    have hmod : bytesToNat buf % 2 ^ (d.total_size * 8) = bytesToNat buf := by
      apply Nat.mod_eq_of_lt
      have h1 := bytesToNat_lt buf hbytes
      rw [hlen, pow256_eq] at h1
      rwa [Nat.mul_comm d.total_size 8]
    rw [hmod, ← hlen, natToBytes_bytesToNat buf hbytes]
  refine ⟨⟨d, decodeFields d.fields (bytesToNat buf)⟩, ?_, henc, ?_⟩
  · simp [decode, hlen]
  · rw [henc]
    simp [decode, hlen]

/-- Witness for C4: a two-field description (a 4-bit and a 12-bit
field crossing the byte boundary) over the buffer `0xAB 0xCD`. -/
theorem codec_round_trip_witness :
    ∃ x : DecodedStructure,
      decode ⟨[⟨"lo", 4⟩, ⟨"hi", 12⟩], 2⟩ [171, 205] = Except.ok x ∧
      encode x = [171, 205] ∧
      decode ⟨[⟨"lo", 4⟩, ⟨"hi", 12⟩], 2⟩ (encode x) = Except.ok x :=
  codec_round_trip ⟨[⟨"lo", 4⟩, ⟨"hi", 12⟩], 2⟩ [171, 205]
    (by decide) rfl (by decide)

end Smartie
